import Mathlib

/-!
# Verification of the YouTube transcript store and search engine

A shallow embedding of the core of the `youtube-transcriber` server
(`dist/index.js`): URL/identifier resolution, the in-memory transcript store,
transcript ingestion, and the substring-match-with-context search engine.

Modelling conventions:
* JavaScript strings are Lean `String`s (lists of characters); the regular
  expressions of the source are embedded as explicit backtracking matchers
  with JavaScript leftmost-match and greedy semantics.
* JavaScript numbers are embedded as `ℚ` (the source only divides by 1000,
  subtracts and compares, all of which are exact here).
* `String.prototype.localeCompare` is modelled as lexicographic code-point
  comparison (the ECMA-262 fallback ordering used when no locale data is
  active); `toLowerCase` is modelled as ASCII lowercasing.
* The `Map` that holds loaded videos is modelled as an insertion-ordered
  association list, which is how a JavaScript `Map` enumerates.
-/

namespace YT

/-- The identifier alphabet `[a-zA-Z0-9_-]` of the source's regexes. -/
def isIdChar (c : Char) : Bool :=
  (('a' ≤ c ∧ c ≤ 'z') ∨ ('A' ≤ c ∧ c ≤ 'Z') ∨ ('0' ≤ c ∧ c ≤ '9') ∨ c = '_' ∨ c = '-')

/-- JavaScript line terminators, which `.` in a regex never matches. -/
def isLineTerm (c : Char) : Bool :=
  c = '\n' ∨ c = '\r' ∨ c.val = 0x2028 ∨ c.val = 0x2029

/-- The JavaScript `\s` character class (WhiteSpace ∪ LineTerminator). -/
def isJsWs (c : Char) : Bool :=
  c = ' ' ∨ c = '\t' ∨ c = '\n' ∨ c = '\r' ∨ c.val = 0xb ∨ c.val = 0xc ∨
  c.val = 0xa0 ∨ c.val = 0x1680 ∨ (0x2000 ≤ c.val ∧ c.val ≤ 0x200a) ∨
  c.val = 0x2028 ∨ c.val = 0x2029 ∨ c.val = 0x202f ∨ c.val = 0x205f ∨
  c.val = 0x3000 ∨ c.val = 0xfeff

/-- `String.prototype.toLowerCase`, modelled as ASCII lowercasing of each
character. -/
def jsToLower (s : String) : String := String.mk (s.data.map Char.toLower)

/-- Match a literal character sequence at the head of `s`, returning the rest. -/
def matchLit : List Char → List Char → Option (List Char)
  | [], s => some s
  | _ :: _, [] => none
  | c :: cs, d :: ds => if c = d then matchLit cs ds else none

/-- Match the capture group `([a-zA-Z0-9_-]{11})` at the head of `s`:
exactly 11 identifier characters.  Returns the captured characters and
the rest of the input. -/
def idTake (s : List Char) : Option (List Char × List Char) :=
  if (s.take 11).length = 11 ∧ (s.take 11).all isIdChar then
    some (s.take 11, s.drop 11)
  else none

/-- Leftmost-match semantics of an unanchored JavaScript regex: try the
matcher at every position of the input, left to right, and return the first
success. -/
def scanFirst (f : List Char → Option α) : List Char → Option α
  | [] => f []
  | c :: cs =>
    match f (c :: cs) with
    | some r => some r
    | none => scanFirst f cs

/-! ## `extractVideoId` (source lines 190–205)

```js
const patterns = [
  /(?:youtube\.com\/watch\?v=|youtu\.be\/|youtube\.com\/embed\/)([a-zA-Z0-9_-]{11})/,
  /youtube\.com\/watch\?.*v=([a-zA-Z0-9_-]{11})/,
];
for (const pattern of patterns) {
  const match = url.match(pattern);
  if (match) return match[1];
}
if (/^[a-zA-Z0-9_-]{11}$/.test(url)) return url;
return null;
```
-/

/-- First pattern of `extractVideoId`, tried at one position: the alternation
`youtube.com/watch?v= | youtu.be/ | youtube.com/embed/` followed by the
11-character capture group.  Returns the capture. -/
def matchP1At (s : List Char) : Option (List Char) :=
  match (matchLit "youtube.com/watch?v=".data s).bind (fun r => (idTake r).map (·.1)) with
  | some id => some id
  | none =>
    match (matchLit "youtu.be/".data s).bind (fun r => (idTake r).map (·.1)) with
    | some id => some id
    | none => (matchLit "youtube.com/embed/".data s).bind (fun r => (idTake r).map (·.1))

/-- The greedy `.*v=([a-zA-Z0-9_-]{11})` part of the second pattern: `.*`
consumes as many non-line-terminator characters as possible and backtracks, so
the capture comes from the last position where `v=` plus 11 identifier
characters matches.  Returns the capture. -/
def greedyVId : List Char → Option (List Char)
  | [] => (matchLit "v=".data []).bind (fun r => (idTake r).map (·.1))
  | c :: cs =>
    if isLineTerm c then
      (matchLit "v=".data (c :: cs)).bind (fun r => (idTake r).map (·.1))
    else
      match greedyVId cs with
      | some id => some id
      | none => (matchLit "v=".data (c :: cs)).bind (fun r => (idTake r).map (·.1))

/-- Second pattern of `extractVideoId`, tried at one position:
`youtube\.com\/watch\?.*v=([a-zA-Z0-9_-]{11})`. -/
def matchP2At (s : List Char) : Option (List Char) :=
  (matchLit "youtube.com/watch?".data s).bind greedyVId

/-- `extractVideoId` (the Reference Resolver's `resolveVideoId`): try the two
URL patterns in order with leftmost-match semantics, then accept the whole
input as a bare identifier when it is exactly 11 identifier characters. -/
def extractVideoId (url : String) : Option String :=
  match scanFirst matchP1At url.data with
  | some id => some (String.mk id)
  | none =>
    match scanFirst matchP2At url.data with
    | some id => some (String.mk id)
    | none =>
      if url.data.length = 11 ∧ url.data.all isIdChar then some url else none

/-! ## `extractUrlFromCommand` (source lines 175–189)

```js
const urlPatterns = [
  /https?:\/\/(?:www\.|m\.)?(?:youtube\.com\/watch\?[^\s]*v=|youtu\.be\/)([a-zA-Z0-9_-]{11})[^\s]*/g,
  /youtube\.com\/watch\?[^\s]*v=([a-zA-Z0-9_-]{11})[^\s]*/g,
  /youtu\.be\/([a-zA-Z0-9_-]{11})[^\s]*/g,
];
for (const pattern of urlPatterns) {
  const match = command.match(pattern);
  if (match) return match[0];
}
return null;
```

Each matcher below returns the consumed span (the regex's `match[0]`) and, in
intermediate steps, the remaining input. -/

/-- Match a literal, returning the consumed span and the rest. -/
def litC (lit : String) (s : List Char) : Option (List Char × List Char) :=
  (matchLit lit.data s).map (fun r => (lit.data, r))

/-- Match `v=` followed by the 11-character capture group. -/
def vIdC (s : List Char) : Option (List Char × List Char) :=
  (litC "v=" s).bind (fun p => (idTake p.2).map (fun q => (p.1 ++ q.1, q.2)))

/-- Greedy `[^\s]*` followed by `v=([a-zA-Z0-9_-]{11})`, with backtracking:
the star consumes as many non-whitespace characters as possible, so the
match uses the last position where `v=` plus 11 identifier characters fits. -/
def starNonWsVId : List Char → Option (List Char × List Char)
  | [] => vIdC []
  | c :: cs =>
    if isJsWs c then vIdC (c :: cs)
    else
      match starNonWsVId cs with
      | some (cc, r) => some (c :: cc, r)
      | none => vIdC (c :: cs)

/-- First host alternative of the first URL pattern:
`youtube\.com\/watch\?[^\s]*v=` followed by the capture group. -/
def hostAltA (s : List Char) : Option (List Char × List Char) :=
  (litC "youtube.com/watch?" s).bind
    (fun p => (starNonWsVId p.2).map (fun q => (p.1 ++ q.1, q.2)))

/-- Second host alternative: `youtu\.be\/` followed by the capture group. -/
def hostAltB (s : List Char) : Option (List Char × List Char) :=
  (litC "youtu.be/" s).bind (fun p => (idTake p.2).map (fun q => (p.1 ++ q.1, q.2)))

/-- The alternation `(?:youtube\.com\/watch\?[^\s]*v=|youtu\.be\/)` followed by
the capture group, alternatives tried in source order. -/
def hostPart (s : List Char) : Option (List Char × List Char) :=
  match hostAltA s with
  | some r => some r
  | none => hostAltB s

/-- The greedy optional `(?:www\.|m\.)?` followed by the host part, with
backtracking through the three alternatives (`www.`, `m.`, empty). -/
def optWwwM (s : List Char) : Option (List Char × List Char) :=
  match (litC "www." s).bind (fun p => (hostPart p.2).map (fun q => (p.1 ++ q.1, q.2))) with
  | some r => some r
  | none =>
    match (litC "m." s).bind (fun p => (hostPart p.2).map (fun q => (p.1 ++ q.1, q.2))) with
    | some r => some r
    | none => hostPart s

/-- `https?:\/\/` followed by the rest of the first pattern.  The greedy
optional `s?` is expanded into the equivalent ordered alternation
`https:// | http://`. -/
def schemeHost (s : List Char) : Option (List Char × List Char) :=
  match (litC "https://" s).bind (fun p => (optWwwM p.2).map (fun q => (p.1 ++ q.1, q.2))) with
  | some r => some r
  | none => (litC "http://" s).bind (fun p => (optWwwM p.2).map (fun q => (p.1 ++ q.1, q.2)))

/-- First URL pattern tried at one position; the trailing greedy `[^\s]*`
extends the match to the end of the non-whitespace run. -/
def matchU1At (s : List Char) : Option (List Char) :=
  (schemeHost s).map (fun p => p.1 ++ p.2.takeWhile (fun c => !isJsWs c))

/-- Second URL pattern tried at one position:
`youtube\.com\/watch\?[^\s]*v=([a-zA-Z0-9_-]{11})[^\s]*`. -/
def matchU2At (s : List Char) : Option (List Char) :=
  ((litC "youtube.com/watch?" s).bind
    (fun p => (starNonWsVId p.2).map (fun q => (p.1 ++ q.1, q.2)))).map
    (fun p => p.1 ++ p.2.takeWhile (fun c => !isJsWs c))

/-- Third URL pattern tried at one position:
`youtu\.be\/([a-zA-Z0-9_-]{11})[^\s]*`. -/
def matchU3At (s : List Char) : Option (List Char) :=
  (hostAltB s).map (fun p => p.1 ++ p.2.takeWhile (fun c => !isJsWs c))

/-- `extractUrlFromCommand` (the Reference Resolver's `extractUrlSpan`): try
the three URL patterns in priority order; for the first one that matches
anywhere, return the full matched span (`match[0]`) of its leftmost
occurrence. -/
def extractUrlFromCommand (command : String) : Option String :=
  match scanFirst matchU1At command.data with
  | some m => some (String.mk m)
  | none =>
    match scanFirst matchU2At command.data with
    | some m => some (String.mk m)
    | none => (scanFirst matchU3At command.data).map String.mk

/-! ## Transcript data model and `searchInTranscript` (source lines 206–233) -/

/-- One caption unit as stored by the core: text, start time and duration in
seconds (`ℚ` models the JavaScript numbers; the source divides the adapter's
milliseconds by 1000 before storing). -/
structure TranscriptEntry where
  text : String
  start : ℚ
  duration : ℚ
deriving DecidableEq, Repr

instance : Inhabited TranscriptEntry := ⟨⟨"", 0, 0⟩⟩

/-- One per-video search match (`results.push` in `searchInTranscript`). -/
structure SearchResult where
  timestamp : ℚ
  duration : ℚ
  text : String
  context : String
  matchIndex : ℕ
deriving DecidableEq, Repr

/-- `String.prototype.includes`: `sub` occurs contiguously in `s`. -/
def containsSub (s sub : List Char) : Bool :=
  if sub.isPrefixOf s then true
  else
    match s with
    | [] => false
    | _ :: t => containsSub t sub

/-- The `transcript.forEach((entry, i) => …)` loop of `searchInTranscript`,
with `full` the whole transcript (used for the context window) and `i` the
index of the head of the remaining list. -/
def searchGo (full : List TranscriptEntry) (queryLower : String) (contextWords : ℕ) :
    List TranscriptEntry → ℕ → List SearchResult
  | [], _ => []
  | e :: rest, i =>
    if containsSub (jsToLower e.text).data queryLower.data then
      let startIdx : ℤ := max 0 ((i : ℤ) - contextWords)
      let endIdx : ℤ := min (full.length : ℤ) ((i : ℤ) + contextWords + 1)
      let contextEntries := (full.drop startIdx.toNat).take (endIdx.toNat - startIdx.toNat)
      let contextText := String.intercalate " " (contextEntries.map (·.text))
      { timestamp := e.start, duration := e.duration, text := e.text,
        context := contextText, matchIndex := i } :: searchGo full queryLower contextWords rest (i + 1)
    else searchGo full queryLower contextWords rest (i + 1)

/-- `searchInTranscript(transcript, query, contextWords)`: every entry whose
lowercased text contains the lowercased query yields one match carrying the
entry's timestamp, duration, text, index, and the surrounding
`slice(max(0, i-contextWords), min(n, i+contextWords+1))` joined by spaces. -/
def searchInTranscript (transcript : List TranscriptEntry) (query : String)
    (contextWords : ℕ) : List SearchResult :=
  searchGo transcript (jsToLower query) contextWords transcript 0

/-- Written from the spec's words: the context window of a match at index `i`
in a transcript of length `n` spans `[max(0, i-contextWindow),
min(n, i+contextWindow+1))`. -/
def specContextWindow (t : List TranscriptEntry) (contextWindow i : ℕ) :
    List TranscriptEntry :=
  let lo := (max 0 ((i : ℤ) - contextWindow)).toNat
  let hi := min t.length (i + contextWindow + 1)
  (t.drop lo).take (hi - lo)

/-- Written from the spec's words: the search engine produces exactly one
match for each entry whose lowercased text contains the lowercased query as a
substring; the match at index `i` carries that entry's data, `matchIndex = i`,
and the context-window texts joined by a single space. -/
def searchSpec (t : List TranscriptEntry) (query : String) (contextWindow : ℕ) :
    List SearchResult :=
  (List.range t.length).filterMap (fun i =>
    let e := t.getD i default
    if containsSub (jsToLower e.text).data (jsToLower query).data then
      some { timestamp := e.start, duration := e.duration, text := e.text,
             context := String.intercalate " " ((specContextWindow t contextWindow i).map (·.text)),
             matchIndex := i }
    else none)

/-! ## The video store (`this.videos`, a JavaScript `Map`) and the records -/

/-- The stored record (`videoData`, source lines 289–295): the spread of
`getVideoInfo` plus transcript, language and summary stats. -/
structure VideoData where
  id : String
  url : String
  title : String
  language : String
  transcript : List TranscriptEntry
  transcriptLength : ℕ
  totalDuration : ℚ
deriving DecidableEq, Repr

/-- `this.videos`: a JavaScript `Map` from video id to record, modelled as an
insertion-ordered association list (a `Map` enumerates in insertion order). -/
abbrev Store := List (String × VideoData)

/-- `Map.prototype.get`: the value stored at the key, if any. -/
def Store.get : Store → String → Option VideoData
  | [], _ => none
  | e :: t, k => if e.1 = k then some e.2 else Store.get t k

/-- `Map.prototype.has`. -/
def Store.has (s : Store) (k : String) : Bool :=
  (Store.get s k).isSome

/-- `Map.prototype.set`: replace in place if the key is present, else append. -/
def Store.set (s : Store) (k : String) (v : VideoData) : Store :=
  if Store.has s k then List.map (fun e => if e.1 = k then (k, v) else e) s
  else s ++ [(k, v)]

/-- `Map.prototype.delete`: remove the entry holding the key. -/
def Store.del : Store → String → Store
  | [], _ => []
  | e :: t, k => if e.1 = k then t else e :: Store.del t k

/-- `Map.prototype.size`. -/
def Store.size (s : Store) : ℕ := List.length s

/-- `Map.prototype.keys` (insertion order). -/
def Store.keys (s : Store) : List String := List.map Prod.fst s

/-- A `Map` never holds two entries with the same key. -/
def Store.Wf (s : Store) : Prop := (Store.keys s).Nodup

instance (s : Store) : Decidable (Store.Wf s) :=
  inferInstanceAs (Decidable (Store.keys s).Nodup)

/-! ## The command facade -/

/-- `getVideoInfo` (source lines 206–213). -/
def getVideoInfo (videoId : String) : String × String × String × String :=
  (videoId, "https://www.youtube.com/watch?v=" ++ videoId,
   "Video " ++ videoId, "en")

/-- A raw caption entry as delivered by the fetch adapter
(`YoutubeTranscript.fetchTranscript`): text plus offset and duration in
milliseconds. -/
structure RawEntry where
  text : String
  offset : ℚ
  duration : ℚ
deriving DecidableEq, Repr

/-- Outcome of `addYouTubeVideo`, one constructor per returned message. -/
inductive AddResult where
  | invalidUrl (url : String)
  | alreadyLoaded (videoId : String)
  | fetchError (videoId : String) (message : String)
  | success (videoId : String) (entries : ℕ) (totalDuration : ℚ) (language : String)
deriving DecidableEq, Repr

/-- The ingestion conversion (source lines 279–283): the adapter's
millisecond offsets and durations are divided by 1000. -/
def ingestEntries (transcriptData : List RawEntry) : List TranscriptEntry :=
  transcriptData.map (fun e =>
    { text := e.text, start := e.offset / 1000, duration := e.duration / 1000 })

/-- `totalDuration` (source lines 285–287): start + duration of the last
entry, or 0 for an empty transcript. -/
def totalDurationOf (transcript : List TranscriptEntry) : ℚ :=
  match transcript.getLast? with
  | some lastEntry => lastEntry.start + lastEntry.duration
  | none => 0

/-- `addYouTubeVideo` (source lines 250–316).  The fetch adapter is the
injected dependency `fetch`; the store is passed and returned explicitly in
place of `this.videos`. -/
def addYouTubeVideo (fetch : String → String → Except String (List RawEntry))
    (s : Store) (url : String) (language : String) : AddResult × Store :=
  match extractVideoId url with
  | none => (.invalidUrl url, s)
  | some videoId =>
    if Store.has s videoId then (.alreadyLoaded videoId, s)
    else
      match fetch videoId language with
      | .error msg => (.fetchError videoId msg, s)
      | .ok transcriptData =>
        let transcript := ingestEntries transcriptData
        let info := getVideoInfo videoId
        let videoData : VideoData :=
          { id := info.1, url := info.2.1, title := info.2.2.1, language := language,
            transcript := transcript, transcriptLength := transcript.length,
            totalDuration := totalDurationOf transcript }
        (.success videoId transcript.length (totalDurationOf transcript) language,
         Store.set s videoId videoData)

/-- Outcome of `getVideoTranscript`; the record is returned whole, the
json/text rendering of its `transcript` being presentation only. -/
inductive GetTranscriptResult where
  | notFound (videoId : String)
  | ok (format : String) (video : VideoData)
deriving DecidableEq, Repr

/-- `getVideoTranscript` (source lines 401–432). -/
def getVideoTranscript (s : Store) (videoId : String) (format : String) :
    GetTranscriptResult :=
  match Store.get s videoId with
  | none => .notFound videoId
  | some videoData => .ok format videoData

/-- Outcome of `removeVideo`. -/
inductive RemoveResult where
  | notFound (videoId : String)
  | removed (title : String) (videoId : String)
deriving DecidableEq, Repr

/-- `removeVideo` (source lines 433–445). -/
def removeVideo (s : Store) (videoId : String) : RemoveResult × Store :=
  match Store.get s videoId with
  | none => (.notFound videoId, s)
  | some videoData => (.removed videoData.title videoId, Store.del s videoId)

/-! ## `searchTranscripts` (source lines 317–380) -/

/-- One cross-video search result (`allResults.push({videoId, videoUrl,
videoTitle, ...result})`). -/
structure FullResult where
  videoId : String
  videoUrl : String
  videoTitle : String
  timestamp : ℚ
  duration : ℚ
  text : String
  context : String
  matchIndex : ℕ
deriving DecidableEq, Repr

/-- Three-way comparison of characters by code point. -/
def charCmp (a b : Char) : Ordering :=
  if a < b then .lt else if b < a then .gt else .eq

/-- Lexicographic three-way comparison of character lists. -/
def listCmp : List Char → List Char → Ordering
  | [], [] => .eq
  | [], _ :: _ => .lt
  | _ :: _, [] => .gt
  | a :: xs, b :: ys =>
    match charCmp a b with
    | .eq => listCmp xs ys
    | o => o

/-- `localeCompare`, modelled as lexicographic code-point comparison (the
ECMA-262 fallback ordering). -/
def strCmp (a b : String) : Ordering := listCmp a.data b.data

/-- Three-way comparison of rationals (the sign of `a - b` in the source). -/
def ratCmp (a b : ℚ) : Ordering :=
  if a < b then .lt else if b < a then .gt else .eq

/-- The sort comparator of `searchTranscripts` (source lines 352–357):
same video → by timestamp, otherwise by `localeCompare` of the video ids. -/
def cmpMatch (a b : FullResult) : Ordering :=
  if a.videoId = b.videoId then ratCmp a.timestamp b.timestamp
  else strCmp a.videoId b.videoId

/-- Insert `x` into `l` after every element strictly smaller under `cmp`
(and hence before equal elements arriving earlier is impossible: the caller
inserts in reverse input order, giving ES2019 stable-sort semantics). -/
def insertCmp (cmp : α → α → Ordering) (x : α) : List α → List α
  | [] => [x]
  | y :: ys => if cmp y x = .lt then y :: insertCmp cmp x ys else x :: y :: ys

/-- `Array.prototype.sort` with a comparator: a stable sort (required by
ECMAScript 2019), modelled as stable insertion sort. -/
def jsSort (cmp : α → α → Ordering) : List α → List α
  | [] => []
  | x :: xs => insertCmp cmp x (jsSort cmp xs)

/-- The per-video part of the scan loop: look the id up, search its
transcript, and tag each per-video result with the video's id, url and
title (`continue` on an id that is not in the store). -/
def videoBlock (s : Store) (query : String) (contextWords : ℕ) (videoId : String) :
    List FullResult :=
  match Store.get s videoId with
  | none => []
  | some videoData =>
    (searchInTranscript videoData.transcript query contextWords).map (fun r =>
      { videoId := videoId, videoUrl := videoData.url, videoTitle := videoData.title,
        timestamp := r.timestamp, duration := r.duration, text := r.text,
        context := r.context, matchIndex := r.matchIndex })

/-- The `for (const videoId of searchIds)` loop accumulating `allResults`. -/
def collectResults (s : Store) (query : String) (contextWords : ℕ) :
    List String → List FullResult
  | [] => []
  | videoId :: rest =>
    videoBlock s query contextWords videoId ++ collectResults s query contextWords rest

/-- `String.prototype.trim`: strip JavaScript whitespace from both ends. -/
def jsTrim (s : String) : String :=
  String.mk (((s.data.dropWhile isJsWs).reverse.dropWhile isJsWs).reverse)

/-- Outcome of `searchTranscripts`, one constructor per returned message. -/
inductive SearchResponse where
  | emptyStore
  | invalidQuery
  | noMatches (query : String) (searched : List String)
  | matches (query : String) (results : List FullResult)
deriving DecidableEq, Repr

/-- `searchTranscripts(query, videoIds, contextWords)`: empty-store and
empty-query guards, scan of the candidate ids (the argument list if supplied,
all stored keys otherwise), then the stable sort by (videoId, timestamp).
The store is returned unchanged — the handler never writes `this.videos`. -/
def searchTranscripts (s : Store) (query : String) (videoIds : Option (List String))
    (contextWords : ℕ) : SearchResponse × Store :=
  if Store.size s = 0 then (.emptyStore, s)
  else if jsTrim query = "" then (.invalidQuery, s)
  else
    let searchIds := videoIds.getD (Store.keys s)
    let allResults := collectResults s query contextWords searchIds
    if allResults.isEmpty then (.noMatches query searchIds, s)
    else (.matches query (jsSort cmpMatch allResults), s)

/-- The match list of a search response, when it is the `matches` outcome. -/
def responseMatches : SearchResponse → Option (List FullResult)
  | .matches _ results => some results
  | _ => none

/-- A sample transcript entry for concrete witnesses. -/
def sampleEntry : TranscriptEntry := { text := "hello world", start := 1, duration := 2 }

/-- A sample stored record for concrete witnesses. -/
def sampleVideo : VideoData :=
  { id := "AAAAAAAAAAA", url := "https://www.youtube.com/watch?v=AAAAAAAAAAA",
    title := "Video AAAAAAAAAAA", language := "en", transcript := [sampleEntry],
    transcriptLength := 1, totalDuration := 3 }

/-- A sample one-video store for concrete witnesses. -/
def sampleStore : Store := [("AAAAAAAAAAA", sampleVideo)]

/-- Three-way comparison of naturals (tie-break key used only in proofs). -/
def natCmp (a b : ℕ) : Ordering :=
  if a < b then .lt else if b < a then .gt else .eq

/-- The fully strict sort key: video id, then timestamp, then match index.
Stability of the sort makes the output pairwise strictly increasing in this
key, which is what makes the result independent of the scan order. -/
def cmpFull (a b : FullResult) : Ordering :=
  (strCmp a.videoId b.videoId).then
    ((ratCmp a.timestamp b.timestamp).then (natCmp a.matchIndex b.matchIndex))

/-- The match produced by the spec at index `j`. -/
def specMatchAt (full : List TranscriptEntry) (query : String) (cw j : ℕ) :
    Option SearchResult :=
  let e := full.getD j default
  if containsSub (jsToLower e.text).data (jsToLower query).data then
    some { timestamp := e.start, duration := e.duration, text := e.text,
           context := String.intercalate " " ((specContextWindow full cw j).map (·.text)),
           matchIndex := j }
  else none

/-- A span matcher that only ever consumes a prefix of its input. -/
def Consumes (f : List Char → Option (List Char × List Char)) : Prop :=
  ∀ s c r, f s = some (c, r) → s = c ++ r

/-- A sample record whose transcript matches the query "a". -/
def sampleVideoA : VideoData :=
  { id := "AAAAAAAAAAA", url := "https://www.youtube.com/watch?v=AAAAAAAAAAA",
    title := "Video AAAAAAAAAAA", language := "en",
    transcript := [{ text := "a bird", start := 7, duration := 1 }],
    transcriptLength := 1, totalDuration := 8 }

/-- A second sample record (different id, both transcripts match "a"). -/
def sampleVideoB : VideoData :=
  { id := "BBBBBBBBBBB", url := "https://www.youtube.com/watch?v=BBBBBBBBBBB",
    title := "Video BBBBBBBBBBB", language := "en",
    transcript := [{ text := "a cat", start := 5, duration := 1 },
                   { text := "a dog", start := 2, duration := 1 }],
    transcriptLength := 2, totalDuration := 6 }

/-- A two-video store scanned in reverse insertion order by the witness. -/
def sampleStore2 : Store := [("BBBBBBBBBBB", sampleVideoB), ("AAAAAAAAAAA", sampleVideoA)]

/-! ## Lemmas: the search engine refines its specification -/

/-- The integer slice bounds computed by `searchInTranscript` select exactly
the spec's context window. -/
lemma codeWindow_eq (full : List TranscriptEntry) (cw i : ℕ) :
    (full.drop (max 0 ((i : ℤ) - cw)).toNat).take
      ((min (full.length : ℤ) ((i : ℤ) + cw + 1)).toNat - (max 0 ((i : ℤ) - cw)).toNat)
    = specContextWindow full cw i := by
  unfold specContextWindow
  have h1 : (min (full.length : ℤ) ((i : ℤ) + cw + 1)).toNat
      = min full.length (i + cw + 1) := by omega
  rw [h1]

lemma searchSpec_eq_filterMap (t : List TranscriptEntry) (q : String) (cw : ℕ) :
    searchSpec t q cw = (List.range t.length).filterMap (specMatchAt t q cw) := rfl

lemma searchGo_eq_spec (full : List TranscriptEntry) (q : String) (cw : ℕ) :
    ∀ (l : List TranscriptEntry) (i : ℕ), full.drop i = l →
    searchGo full (jsToLower q) cw l i
      = (List.range' i l.length).filterMap (specMatchAt full q cw) := by
  intro l
  induction l with
  | nil => intro i _; simp [searchGo]
  | cons e rest ih =>
    intro i hdrop
    have hi : i < full.length := by
      by_contra hle
      rw [List.drop_eq_nil_of_le (Nat.le_of_not_lt hle)] at hdrop
      exact List.noConfusion hdrop
    have hcons := List.drop_eq_getElem_cons (l := full) (n := i) hi
    rw [hdrop] at hcons
    have hget : full[i] = e := (List.cons.injEq _ _ _ _ ▸ hcons).1.symm
    have hrest : full.drop (i + 1) = rest := ((List.cons.injEq _ _ _ _ ▸ hcons).2).symm
    have hgetD : full.getD i default = e := by
      rw [List.getD_eq_getElem?_getD, List.getElem?_eq_getElem hi, hget]; rfl
    have hlen : (e :: rest).length = rest.length + 1 := rfl
    rw [hlen, List.range'_succ, List.filterMap_cons]
    have hspec : specMatchAt full q cw i
        = if containsSub (jsToLower e.text).data (jsToLower q).data then
            some { timestamp := e.start, duration := e.duration, text := e.text,
                   context := String.intercalate " "
                     ((specContextWindow full cw i).map (·.text)),
                   matchIndex := i }
          else none := by
      unfold specMatchAt
      rw [hgetD]
    by_cases hc : containsSub (jsToLower e.text).data (jsToLower q).data
    · rw [hspec, if_pos hc]
      show searchGo full (jsToLower q) cw (e :: rest) i = _
      unfold searchGo
      rw [if_pos hc]
      simp only [ih (i + 1) hrest, codeWindow_eq]
    · rw [hspec, if_neg hc]
      show searchGo full (jsToLower q) cw (e :: rest) i = _
      unfold searchGo
      rw [if_neg hc]
      simp only [ih (i + 1) hrest]

/-- The search engine computes exactly its specification. -/
lemma searchInTranscript_eq_searchSpec (t : List TranscriptEntry) (q : String)
    (cw : ℕ) : searchInTranscript t q cw = searchSpec t q cw := by
  unfold searchInTranscript
  rw [searchGo_eq_spec t q cw t 0 (List.drop_zero t), searchSpec_eq_filterMap,
    List.range_eq_range']

/-! ## Lemmas: literal matching and scanning -/

lemma matchLit_eq_some {lit s r : List Char} :
    matchLit lit s = some r ↔ s = lit ++ r := by
  induction lit generalizing s with
  | nil =>
    simp [matchLit, eq_comm]
  | cons c cs ih =>
    cases s with
    | nil => simp [matchLit]
    | cons d ds =>
      simp only [matchLit, List.cons_append, List.cons.injEq]
      by_cases hcd : c = d
      · subst hcd
        rw [if_pos rfl, ih]
        simp
      · rw [if_neg hcd]
        constructor
        · intro h
          exact absurd h (by simp)
        · intro h
          exact absurd h.1.symm hcd

lemma matchLit_self_append (lit r : List Char) : matchLit lit (lit ++ r) = some r :=
  matchLit_eq_some.mpr rfl

lemma idTake_append {id : List Char} (t : List Char) (hlen : id.length = 11)
    (hid : id.all isIdChar) : idTake (id ++ t) = some (id, t) := by
  unfold idTake
  rw [List.take_left' hlen, List.drop_left' hlen, if_pos ⟨hlen, hid⟩]

/-- A successful scan at the head suffix. -/
lemma scanFirst_cons_some {f : List Char → Option α} {c : Char} {cs : List Char}
    {r : α} (h : f (c :: cs) = some r) : scanFirst f (c :: cs) = some r := by
  show (match f (c :: cs) with | some r => some r | none => scanFirst f cs) = some r
  rw [h]

/-- A failed attempt at the head position moves the scan one to the right. -/
lemma scanFirst_cons_none {f : List Char → Option α} {c : Char} {cs : List Char}
    (h : f (c :: cs) = none) : scanFirst f (c :: cs) = scanFirst f cs := by
  show (match f (c :: cs) with | some r => some r | none => scanFirst f cs) = scanFirst f cs
  rw [h]

lemma matchLit_cons_ne {c d : Char} (h : c ≠ d) (cs ds : List Char) :
    matchLit (c :: cs) (d :: ds) = none := by
  unfold matchLit
  rw [if_neg h]

/-- All three alternatives of the first id pattern start with `y`. -/
lemma matchP1At_none_of_ne {c : Char} (cs : List Char) (h : c ≠ 'y') :
    matchP1At (c :: cs) = none := by
  have hy : 'y' ≠ c := fun h' => h h'.symm
  have h1 : matchLit "youtube.com/watch?v=".data (c :: cs) = none := by
    have hd : "youtube.com/watch?v=".data = 'y' :: "outube.com/watch?v=".data := rfl
    rw [hd, matchLit_cons_ne hy]
  have h2 : matchLit "youtu.be/".data (c :: cs) = none := by
    have hd : "youtu.be/".data = 'y' :: "outu.be/".data := rfl
    rw [hd, matchLit_cons_ne hy]
  have h3 : matchLit "youtube.com/embed/".data (c :: cs) = none := by
    have hd : "youtube.com/embed/".data = 'y' :: "outube.com/embed/".data := rfl
    rw [hd, matchLit_cons_ne hy]
  unfold matchP1At
  rw [h1, h2, h3]
  rfl

/-- The second id pattern also starts with `y`. -/
lemma matchP2At_none_of_ne {c : Char} (cs : List Char) (h : c ≠ 'y') :
    matchP2At (c :: cs) = none := by
  have hy : 'y' ≠ c := fun h' => h h'.symm
  have h1 : matchLit "youtube.com/watch?".data (c :: cs) = none := by
    have hd : "youtube.com/watch?".data = 'y' :: "outube.com/watch?".data := rfl
    rw [hd, matchLit_cons_ne hy]
  unfold matchP2At
  rw [h1]
  rfl

/-- A match anywhere makes the scan succeed (at that suffix or earlier). -/
lemma scanFirst_of_head_match {f : List Char → Option α} {s : List Char} {r : α}
    (h : f s = some r) : scanFirst f s = some r := by
  cases s with
  | nil => exact h
  | cons c cs => exact scanFirst_cons_some h

/-- Scanning may skip a prefix without `y` when the matcher needs a `y` head. -/
lemma scanFirst_skip_noY {f : List Char → Option α}
    (hf : ∀ (c : Char) (cs : List Char), c ≠ 'y' → f (c :: cs) = none) :
    ∀ (pre rest : List Char), (∀ c ∈ pre, c ≠ 'y') →
    scanFirst f (pre ++ rest) = scanFirst f rest := by
  intro pre
  induction pre with
  | nil => intro rest _; rfl
  | cons p ps ih =>
    intro rest hp
    have hpne : p ≠ 'y' := hp p (List.mem_cons_self p ps)
    rw [List.cons_append, scanFirst_cons_none (hf p (ps ++ rest) hpne),
      ih rest (fun c hc => hp c (List.mem_cons_of_mem p hc))]

lemma matchP1At_watch (id t : List Char) (hlen : id.length = 11)
    (hid : id.all isIdChar) :
    matchP1At ("youtube.com/watch?v=".data ++ (id ++ t)) = some id := by
  unfold matchP1At
  rw [matchLit_self_append]
  simp [idTake_append t hlen hid]

lemma matchP1At_short (id t : List Char) (hlen : id.length = 11)
    (hid : id.all isIdChar) :
    matchP1At ("youtu.be/".data ++ (id ++ t)) = some id := by
  unfold matchP1At
  have h1 : matchLit "youtube.com/watch?v=".data ("youtu.be/".data ++ (id ++ t))
      = none := rfl
  rw [h1, matchLit_self_append]
  simp [idTake_append t hlen hid]

lemma matchP1At_embed (id t : List Char) (hlen : id.length = 11)
    (hid : id.all isIdChar) :
    matchP1At ("youtube.com/embed/".data ++ (id ++ t)) = some id := by
  unfold matchP1At
  have h1 : matchLit "youtube.com/watch?v=".data ("youtube.com/embed/".data ++ (id ++ t))
      = none := rfl
  have h2 : matchLit "youtu.be/".data ("youtube.com/embed/".data ++ (id ++ t))
      = none := rfl
  rw [h1, h2, matchLit_self_append]
  simp [idTake_append t hlen hid]

/-- A literal containing `.` can never match inside a pure identifier string. -/
lemma matchLit_none_of_all_id {lit s : List Char} (hdot : '.' ∈ lit)
    (hs : s.all isIdChar) : matchLit lit s = none := by
  cases hm : matchLit lit s with
  | none => rfl
  | some r =>
    have heq := matchLit_eq_some.mp hm
    rw [heq] at hs
    have hdotId : isIdChar '.' :=
      List.all_eq_true.mp hs '.' (List.mem_append_left _ hdot)
    exact absurd hdotId (by decide)

lemma matchP1At_none_of_all_id {s : List Char} (hs : s.all isIdChar) :
    matchP1At s = none := by
  unfold matchP1At
  rw [matchLit_none_of_all_id (by decide) hs, matchLit_none_of_all_id (by decide) hs,
    matchLit_none_of_all_id (by decide) hs]
  rfl

lemma matchP2At_none_of_all_id {s : List Char} (hs : s.all isIdChar) :
    matchP2At s = none := by
  unfold matchP2At
  rw [matchLit_none_of_all_id (by decide) hs]
  rfl

lemma scanFirst_none_of_all_id {f : List Char → Option α}
    (hf : ∀ t : List Char, t.all isIdChar → f t = none) :
    ∀ s : List Char, s.all isIdChar → scanFirst f s = none := by
  intro s
  induction s with
  | nil => intro h; exact hf [] h
  | cons c cs ih =>
    intro h
    rw [scanFirst_cons_none (hf _ h)]
    exact ih (by simp_all)

/-! ## Claim theorems: search engine and reference resolver -/

/-- C2: for every transcript, query string and context window, the search
engine produces exactly one match per entry whose lowercased text contains the
lowercased query as a substring (no deduplication, no scoring), with
`matchIndex` the entry's position `i` and `contextText` the texts of the
window `[max(0, i-contextWindow), min(n, i+contextWindow+1))` joined by a
single space — stated as: the implementation coincides with `searchSpec`,
the function written directly from those words. -/
theorem searchInTranscript_meets_spec (t : List TranscriptEntry) (query : String)
    (contextWindow : ℕ) :
    searchInTranscript t query contextWindow = searchSpec t query contextWindow :=
  searchInTranscript_eq_searchSpec t query contextWindow

/-- C5: `extractVideoId` extracts the identifier from each of the three
recognized URL shapes regardless of trailing query parameters, accepts a bare
input only when it is exactly 11 identifier-alphabet characters, and returns
`none` (never throws — it is a total function) in every other case. -/
theorem extractVideoId_shapes :
    (∀ id tail : String, id.data.length = 11 → id.data.all isIdChar →
      extractVideoId ("https://www.youtube.com/watch?v=" ++ id ++ tail) = some id ∧
      extractVideoId ("https://youtu.be/" ++ id ++ tail) = some id ∧
      extractVideoId ("https://www.youtube.com/embed/" ++ id ++ tail) = some id ∧
      extractVideoId id = some id) ∧
    (∀ s : String,
      scanFirst matchP1At s.data = none → scanFirst matchP2At s.data = none →
      ¬(s.data.length = 11 ∧ s.data.all isIdChar) → extractVideoId s = none) := by
  constructor
  · intro id tail hlen hid
    refine ⟨?_, ?_, ?_, ?_⟩
    · have hsplit : ("https://www.youtube.com/watch?v=" ++ id ++ tail).data
          = "https://www.".data ++ ("youtube.com/watch?v=".data ++ (id.data ++ tail.data)) := rfl
      unfold extractVideoId
      rw [hsplit,
        scanFirst_skip_noY (fun c cs h => matchP1At_none_of_ne cs h) _ _ (by decide),
        scanFirst_of_head_match (matchP1At_watch id.data tail.data hlen hid)]
    · have hsplit : ("https://youtu.be/" ++ id ++ tail).data
          = "https://".data ++ ("youtu.be/".data ++ (id.data ++ tail.data)) := rfl
      unfold extractVideoId
      rw [hsplit,
        scanFirst_skip_noY (fun c cs h => matchP1At_none_of_ne cs h) _ _ (by decide),
        scanFirst_of_head_match (matchP1At_short id.data tail.data hlen hid)]
    · have hsplit : ("https://www.youtube.com/embed/" ++ id ++ tail).data
          = "https://www.".data ++ ("youtube.com/embed/".data ++ (id.data ++ tail.data)) := rfl
      unfold extractVideoId
      rw [hsplit,
        scanFirst_skip_noY (fun c cs h => matchP1At_none_of_ne cs h) _ _ (by decide),
        scanFirst_of_head_match (matchP1At_embed id.data tail.data hlen hid)]
    · unfold extractVideoId
      rw [scanFirst_none_of_all_id (fun t ht => matchP1At_none_of_all_id ht) _ hid,
        scanFirst_none_of_all_id (fun t ht => matchP2At_none_of_all_id ht) _ hid,
        if_pos ⟨hlen, hid⟩]
  · intro s h1 h2 h3
    unfold extractVideoId
    rw [h1, h2, if_neg h3]

/-- Witness for C5 at concrete inputs: the spec's example URL with a trailing
timestamp parameter, and a non-URL input. -/
theorem extractVideoId_shapes_witness :
    extractVideoId "https://www.youtube.com/watch?v=P2DfG5JEAmA&t=447s"
      = some "P2DfG5JEAmA" ∧
    extractVideoId "not a url" = none := by
  have h := extractVideoId_shapes
  constructor
  · have h1 := (h.1 "P2DfG5JEAmA" "&t=447s" (by decide) (by decide)).1
    have heq : ("https://www.youtube.com/watch?v=" ++ "P2DfG5JEAmA" ++ "&t=447s" : String)
        = "https://www.youtube.com/watch?v=P2DfG5JEAmA&t=447s" := by decide
    rwa [heq] at h1
  · exact h.2 "not a url" (by decide) (by decide) (by decide)

/-! ## Lemmas: matched URL spans -/

/-- The scan's result is the match at the leftmost matching position. -/
lemma scanFirst_leftmost {f : List Char → Option α} :
    ∀ {l : List Char} {r : α}, scanFirst f l = some r →
    ∃ k, f (l.drop k) = some r ∧ ∀ j, j < k → f (l.drop j) = none := by
  intro l
  induction l with
  | nil =>
    intro r h
    exact ⟨0, h, fun j hj => absurd hj (Nat.not_lt_zero j)⟩
  | cons c cs ih =>
    intro r h
    cases hf : f (c :: cs) with
    | some r' =>
      rw [scanFirst_cons_some hf] at h
      obtain rfl : r' = r := Option.some.injEq _ _ ▸ h
      exact ⟨0, hf, fun j hj => absurd hj (Nat.not_lt_zero j)⟩
    | none =>
      rw [scanFirst_cons_none hf] at h
      obtain ⟨k, hk, hbelow⟩ := ih h
      refine ⟨k + 1, hk, fun j hj => ?_⟩
      cases j with
      | zero => exact hf
      | succ j' => exact hbelow j' (Nat.lt_of_succ_lt_succ hj)

lemma consumes_litC (lit : String) : Consumes (litC lit) := by
  intro s c r h
  obtain ⟨rest, hm, heq⟩ := Option.map_eq_some'.mp h
  obtain ⟨rfl, rfl⟩ := Prod.mk.injEq _ _ _ _ ▸ heq.symm
  exact matchLit_eq_some.mp hm

lemma consumes_idTake : Consumes idTake := by
  intro s c r h
  unfold idTake at h
  split at h
  · obtain ⟨rfl, rfl⟩ := Prod.mk.injEq _ _ _ _ ▸ (Option.some.injEq _ _ ▸ h).symm
    exact (List.take_append_drop 11 s).symm
  · exact absurd h (by simp)

lemma consumes_seq {f g : List Char → Option (List Char × List Char)}
    (hf : Consumes f) (hg : Consumes g) :
    Consumes (fun s => (f s).bind (fun p => (g p.2).map (fun q => (p.1 ++ q.1, q.2)))) := by
  intro s c r h
  simp only [Option.bind_eq_some, Option.map_eq_some'] at h
  obtain ⟨p, hp, q, hq, heq⟩ := h
  obtain ⟨rfl, rfl⟩ := Prod.mk.injEq _ _ _ _ ▸ heq.symm
  rw [hf s p.1 p.2 hp, hg p.2 q.1 q.2 hq, List.append_assoc]

lemma consumes_vIdC : Consumes vIdC :=
  consumes_seq (consumes_litC "v=") consumes_idTake

lemma consumes_starNonWsVId : Consumes starNonWsVId := by
  intro s
  induction s with
  | nil => exact fun c r h => consumes_vIdC [] c r h
  | cons d ds ih =>
    intro c r h
    unfold starNonWsVId at h
    split at h
    · exact consumes_vIdC _ c r h
    · cases hrec : starNonWsVId ds with
      | some p =>
        obtain ⟨cc, rr⟩ := p
        rw [hrec] at h
        have h' : some (d :: cc, rr) = some (c, r) := h
        obtain ⟨hc, hr⟩ := Prod.mk.injEq _ _ _ _ ▸ Option.some.inj h'
        rw [← hc, ← hr, List.cons_append]
        exact congrArg (d :: ·) (ih cc rr hrec)
      | none =>
        rw [hrec] at h
        exact consumes_vIdC _ c r h

lemma consumes_hostAltA : Consumes hostAltA :=
  consumes_seq (consumes_litC "youtube.com/watch?") consumes_starNonWsVId

lemma consumes_hostAltB : Consumes hostAltB :=
  consumes_seq (consumes_litC "youtu.be/") consumes_idTake

lemma consumes_hostPart : Consumes hostPart := by
  intro s c r h
  unfold hostPart at h
  cases ha : hostAltA s with
  | some p => rw [ha] at h; exact consumes_hostAltA s c r (ha.trans h)
  | none => rw [ha] at h; exact consumes_hostAltB s c r h

lemma consumes_optWwwM : Consumes optWwwM := by
  intro s c r h
  unfold optWwwM at h
  split at h
  · next heq => exact consumes_seq (consumes_litC "www.") consumes_hostPart s c r (heq.trans h)
  · split at h
    · next heq => exact consumes_seq (consumes_litC "m.") consumes_hostPart s c r (heq.trans h)
    · exact consumes_hostPart s c r h

lemma consumes_schemeHost : Consumes schemeHost := by
  intro s c r h
  unfold schemeHost at h
  split at h
  · next heq => exact consumes_seq (consumes_litC "https://") consumes_optWwwM s c r (heq.trans h)
  · exact consumes_seq (consumes_litC "http://") consumes_optWwwM s c r h

/-- A full-pattern matcher whose result is always a prefix of its input. -/
lemma matchU1At_span {s m : List Char} (h : matchU1At s = some m) :
    ∃ rest, s = m ++ rest := by
  unfold matchU1At at h
  obtain ⟨p, hp, heq⟩ := Option.map_eq_some'.mp h
  refine ⟨p.2.dropWhile (fun c => !isJsWs c), ?_⟩
  rw [consumes_schemeHost s p.1 p.2 hp, ← heq, List.append_assoc,
    List.takeWhile_append_dropWhile]

lemma matchU2At_span {s m : List Char} (h : matchU2At s = some m) :
    ∃ rest, s = m ++ rest := by
  unfold matchU2At at h
  obtain ⟨p, hp, heq⟩ := Option.map_eq_some'.mp h
  refine ⟨p.2.dropWhile (fun c => !isJsWs c), ?_⟩
  rw [consumes_seq (consumes_litC "youtube.com/watch?") consumes_starNonWsVId s p.1 p.2 hp,
    ← heq, List.append_assoc, List.takeWhile_append_dropWhile]

lemma matchU3At_span {s m : List Char} (h : matchU3At s = some m) :
    ∃ rest, s = m ++ rest := by
  unfold matchU3At at h
  obtain ⟨p, hp, heq⟩ := Option.map_eq_some'.mp h
  refine ⟨p.2.dropWhile (fun c => !isJsWs c), ?_⟩
  rw [consumes_hostAltB s p.1 p.2 hp, ← heq, List.append_assoc,
    List.takeWhile_append_dropWhile]

/-- C6: `extractUrlFromCommand` returns the full matched URL span (a
substring of the input), chosen by trying the three URL patterns in priority
order, and within the first matching pattern taking the leftmost occurrence;
it returns `none` when no pattern matches anywhere.  Includes the spec's two
concrete examples. -/
theorem extractUrlFromCommand_behavior :
    (extractUrlFromCommand "please transcribe: https://youtu.be/P2DfG5JEAmA"
      = some "https://youtu.be/P2DfG5JEAmA") ∧
    (extractUrlFromCommand "invalid command without url" = none) ∧
    (∀ (s : String) (r : List Char), scanFirst matchU1At s.data = some r →
      extractUrlFromCommand s = some (String.mk r) ∧
      ∃ k rest, matchU1At (s.data.drop k) = some r ∧
        (∀ j, j < k → matchU1At (s.data.drop j) = none) ∧
        s.data.drop k = r ++ rest) ∧
    (∀ (s : String) (r : List Char), scanFirst matchU1At s.data = none →
      scanFirst matchU2At s.data = some r →
      extractUrlFromCommand s = some (String.mk r) ∧
      ∃ k rest, matchU2At (s.data.drop k) = some r ∧
        (∀ j, j < k → matchU2At (s.data.drop j) = none) ∧
        s.data.drop k = r ++ rest) ∧
    (∀ (s : String) (r : List Char), scanFirst matchU1At s.data = none →
      scanFirst matchU2At s.data = none → scanFirst matchU3At s.data = some r →
      extractUrlFromCommand s = some (String.mk r) ∧
      ∃ k rest, matchU3At (s.data.drop k) = some r ∧
        (∀ j, j < k → matchU3At (s.data.drop j) = none) ∧
        s.data.drop k = r ++ rest) ∧
    (∀ s : String, scanFirst matchU1At s.data = none →
      scanFirst matchU2At s.data = none → scanFirst matchU3At s.data = none →
      extractUrlFromCommand s = none) := by
  refine ⟨by decide, by decide, ?_, ?_, ?_, ?_⟩
  · intro s r h1
    refine ⟨by unfold extractUrlFromCommand; rw [h1], ?_⟩
    obtain ⟨k, hk, hbelow⟩ := scanFirst_leftmost h1
    obtain ⟨rest, hrest⟩ := matchU1At_span hk
    exact ⟨k, rest, hk, hbelow, hrest⟩
  · intro s r h1 h2
    refine ⟨by unfold extractUrlFromCommand; rw [h1, h2], ?_⟩
    obtain ⟨k, hk, hbelow⟩ := scanFirst_leftmost h2
    obtain ⟨rest, hrest⟩ := matchU2At_span hk
    exact ⟨k, rest, hk, hbelow, hrest⟩
  · intro s r h1 h2 h3
    refine ⟨by unfold extractUrlFromCommand; rw [h1, h2, h3]; rfl, ?_⟩
    obtain ⟨k, hk, hbelow⟩ := scanFirst_leftmost h3
    obtain ⟨rest, hrest⟩ := matchU3At_span hk
    exact ⟨k, rest, hk, hbelow, hrest⟩
  · intro s h1 h2 h3
    unfold extractUrlFromCommand
    rw [h1, h2, h3]
    rfl

/-- Witness for C6: the leftmost-occurrence conjunct applied at a command
containing one URL surrounded by other text. -/
theorem extractUrlFromCommand_behavior_witness :
    extractUrlFromCommand "watch this https://youtu.be/AAAAAAAAAAA please"
      = some (String.mk "https://youtu.be/AAAAAAAAAAA".data) :=
  (extractUrlFromCommand_behavior.2.2.1
    "watch this https://youtu.be/AAAAAAAAAAA please"
    "https://youtu.be/AAAAAAAAAAA".data (by decide)).1

/-! ## Lemmas: the store -/

lemma store_has_false_iff {s : Store} {k : String} :
    Store.has s k = false ↔ Store.get s k = none := by
  unfold Store.has
  cases h : Store.get s k <;> simp [h]

lemma store_get_eq_none_of_not_mem_keys :
    ∀ (s : Store) (k : String), k ∉ Store.keys s → Store.get s k = none := by
  intro s
  induction s with
  | nil => intro k _; rfl
  | cons e t ih =>
    intro k hk
    have hne : ¬e.1 = k := fun h => hk (h ▸ List.mem_cons_self e.1 (Store.keys t))
    simp only [Store.get]
    rw [if_neg hne]
    exact ih k (fun h => hk (List.mem_cons_of_mem e.1 h))

lemma store_get_set_absent (s : Store) (k : String) (v : VideoData)
    (h : Store.get s k = none) : Store.get (Store.set s k v) k = some v := by
  have hhas : Store.has s k = false := store_has_false_iff.mpr h
  unfold Store.set
  rw [hhas]
  simp only [Bool.false_eq_true, if_false]
  clear hhas
  induction s with
  | nil =>
    rw [List.nil_append]
    simp [Store.get]
  | cons e t ih =>
    rw [List.cons_append]
    simp only [Store.get] at h ⊢
    by_cases hk : e.1 = k
    · rw [if_pos hk] at h
      exact absurd h (by simp)
    · rw [if_neg hk] at h ⊢
      exact ih h

lemma store_get_del_self {s : Store} {k : String} (hwf : Store.Wf s) :
    Store.get (Store.del s k) k = none := by
  induction s with
  | nil => rfl
  | cons e t ih =>
    have hwft : Store.Wf t := (List.nodup_cons.mp hwf).2
    have hnotmem : e.1 ∉ Store.keys t := (List.nodup_cons.mp hwf).1
    simp only [Store.del]
    by_cases hk : e.1 = k
    · rw [if_pos hk]
      exact store_get_eq_none_of_not_mem_keys t k (hk ▸ hnotmem)
    · rw [if_neg hk]
      simp only [Store.get]
      rw [if_neg hk]
      exact ih hwft

lemma store_get_del_other (s : Store) (k k' : String) (hne : k' ≠ k) :
    Store.get (Store.del s k) k' = Store.get s k' := by
  induction s with
  | nil => rfl
  | cons e t ih =>
    simp only [Store.del]
    by_cases hk : e.1 = k
    · rw [if_pos hk]
      simp only [Store.get]
      rw [if_neg (show ¬e.1 = k' from fun h => hne (h.symm.trans hk))]
    · rw [if_neg hk]
      simp only [Store.get]
      by_cases hk' : e.1 = k'
      · rw [if_pos hk', if_pos hk']
      · rw [if_neg hk', if_neg hk']
        exact ih

lemma store_get_some_ne_nil {s : Store} {k : String} {v : VideoData}
    (h : Store.get s k = some v) : 1 ≤ Store.size s := by
  cases s with
  | nil => exact absurd h (by simp [Store.get])
  | cons e t => simp [Store.size]

lemma store_size_del {s : Store} {k : String} {v : VideoData}
    (h : Store.get s k = some v) : Store.size (Store.del s k) = Store.size s - 1 := by
  induction s with
  | nil => exact absurd h (by simp [Store.get])
  | cons e t ih =>
    simp only [Store.get] at h
    simp only [Store.del]
    by_cases hk : e.1 = k
    · rw [if_pos hk]
      show Store.size t = Store.size (e :: t) - 1
      unfold Store.size
      simp only [List.length_cons]
      omega
    · rw [if_neg hk] at h
      rw [if_neg hk]
      have hlen := store_get_some_ne_nil h
      have hdel := ih h
      show Store.size (Store.del t k) + 1 = Store.size (e :: t) - 1
      unfold Store.size at hdel hlen ⊢
      simp only [List.length_cons]
      omega

/-! ## Claim theorems: the store operations -/

/-- C3: when the reference resolves to an identifier already in the store,
`addYouTubeVideo` reports already-loaded and returns the store untouched
(same record count, same records), for every fetch adapter whatsoever — the
result does not depend on `fetch`, so the adapter is not invoked. -/
theorem addYouTubeVideo_idempotent (s : Store) (url language id : String)
    (hres : extractVideoId url = some id) (hhas : Store.has s id = true) :
    ∀ fetch : String → String → Except String (List RawEntry),
      addYouTubeVideo fetch s url language = (.alreadyLoaded id, s) := by
  intro fetch
  unfold addYouTubeVideo
  simp only [hres, hhas, if_true]

/-- Witness for C3: re-adding the already-loaded sample video, with an
adapter that would fail if it were ever consulted. -/
theorem addYouTubeVideo_idempotent_witness :
    addYouTubeVideo (fun _ _ => .error "adapter must not run") sampleStore
      "AAAAAAAAAAA" "en" = (.alreadyLoaded "AAAAAAAAAAA", sampleStore) :=
  addYouTubeVideo_idempotent sampleStore "AAAAAAAAAAA" "en" "AAAAAAAAAAA"
    (by decide) (by decide) _

/-- C4: after a successful `addVideo`, `getTranscript` on the new identifier
returns a record whose transcript is exactly the adapter's entries — same
count, same texts, same order — with start and duration equal to the
millisecond values divided by 1000. -/
theorem addVideo_getTranscript_roundtrip
    (fetch : String → String → Except String (List RawEntry))
    (s : Store) (url language id : String) (raws : List RawEntry)
    (hres : extractVideoId url = some id) (habs : Store.has s id = false)
    (hfetch : fetch id language = .ok raws) :
    (addYouTubeVideo fetch s url language).1
      = .success id raws.length (totalDurationOf (ingestEntries raws)) language ∧
    ∀ format, ∃ vd,
      getVideoTranscript (addYouTubeVideo fetch s url language).2 id format
        = .ok format vd ∧
      vd.transcript = raws.map (fun e =>
        { text := e.text, start := e.offset / 1000, duration := e.duration / 1000 }) ∧
      vd.transcript.length = raws.length := by
  have hget : Store.get s id = none := store_has_false_iff.mp habs
  have hadd : addYouTubeVideo fetch s url language
      = (.success id (ingestEntries raws).length (totalDurationOf (ingestEntries raws))
           language,
         Store.set s id
           { id := id, url := "https://www.youtube.com/watch?v=" ++ id,
             title := "Video " ++ id, language := language,
             transcript := ingestEntries raws,
             transcriptLength := (ingestEntries raws).length,
             totalDuration := totalDurationOf (ingestEntries raws) }) := by
    unfold addYouTubeVideo
    simp only [hres, habs, Bool.false_eq_true, if_false, hfetch]
    rfl
  constructor
  · rw [hadd]
    show AddResult.success id (ingestEntries raws).length _ language = _
    rw [show (ingestEntries raws).length = raws.length from List.length_map _ _]
  · intro format
    refine ⟨{ id := id, url := "https://www.youtube.com/watch?v=" ++ id,
              title := "Video " ++ id, language := language,
              transcript := ingestEntries raws,
              transcriptLength := (ingestEntries raws).length,
              totalDuration := totalDurationOf (ingestEntries raws) }, ?_, ?_, ?_⟩
    · rw [hadd]
      unfold getVideoTranscript
      rw [store_get_set_absent s id _ hget]
    · rfl
    · show (ingestEntries raws).length = raws.length
      exact List.length_map _ _

/-- Witness for C4: adding a fresh video to the empty store and reading its
transcript back. -/
theorem addVideo_getTranscript_roundtrip_witness :
    ((addYouTubeVideo
        (fun _ _ => .ok [{ text := "hi", offset := 1500, duration := 500 }])
        [] "AAAAAAAAAAA" "en").1
      = .success "AAAAAAAAAAA" 1
          (totalDurationOf (ingestEntries [{ text := "hi", offset := 1500, duration := 500 }]))
          "en") ∧
    ∀ format, ∃ vd,
      getVideoTranscript
        (addYouTubeVideo
          (fun _ _ => .ok [{ text := "hi", offset := 1500, duration := 500 }])
          [] "AAAAAAAAAAA" "en").2 "AAAAAAAAAAA" format = .ok format vd ∧
      vd.transcript = [({ text := "hi", offset := 1500, duration := 500 } : RawEntry)].map
        (fun e =>
          { text := e.text, start := e.offset / 1000, duration := e.duration / 1000 }) ∧
      vd.transcript.length
        = [({ text := "hi", offset := 1500, duration := 500 } : RawEntry)].length :=
  addVideo_getTranscript_roundtrip _ [] "AAAAAAAAAAA" "en" "AAAAAAAAAAA"
    [{ text := "hi", offset := 1500, duration := 500 }] (by decide) (by decide) rfl

/-- C7: on a non-empty store, a query that trims to the empty string makes
`searchTranscripts` report the invalid-query error — not an empty match list
and not the no-matches report — and leaves the store unchanged. -/
theorem searchTranscripts_invalidQuery (s : Store) (query : String)
    (videoIds : Option (List String)) (contextWords : ℕ)
    (hne : Store.size s ≠ 0) (hq : jsTrim query = "") :
    searchTranscripts s query videoIds contextWords = (.invalidQuery, s) := by
  unfold searchTranscripts
  rw [if_neg hne, if_pos hq]

/-- Witness for C7: a whitespace-only query against the sample store. -/
theorem searchTranscripts_invalidQuery_witness :
    searchTranscripts sampleStore "   " none 5 = (.invalidQuery, sampleStore) :=
  searchTranscripts_invalidQuery sampleStore "   " none 5 (by decide) (by decide)

/-- C8: `removeVideo` on an absent identifier reports not-found and keeps the
store intact; on a present identifier it reports the record's title and id,
removes exactly that record, keeps every other record, and shrinks the size
by one. -/
theorem removeVideo_spec (s : Store) (id : String) (hwf : Store.Wf s) :
    (Store.get s id = none → removeVideo s id = (.notFound id, s)) ∧
    (∀ vd, Store.get s id = some vd →
      removeVideo s id = (.removed vd.title id, Store.del s id) ∧
      Store.get (Store.del s id) id = none ∧
      (∀ k, k ≠ id → Store.get (Store.del s id) k = Store.get s k) ∧
      Store.size (Store.del s id) = Store.size s - 1) := by
  constructor
  · intro h
    unfold removeVideo
    rw [h]
  · intro vd h
    refine ⟨?_, store_get_del_self hwf, fun k hk => store_get_del_other s id k hk,
      store_size_del h⟩
    unfold removeVideo
    rw [h]

/-- Witness for C8: removing the present sample video and an absent one. -/
theorem removeVideo_spec_witness :
    removeVideo sampleStore "AAAAAAAAAAA"
      = (.removed "Video AAAAAAAAAAA" "AAAAAAAAAAA", ([] : Store)) ∧
    removeVideo sampleStore "BBBBBBBBBBB" = (.notFound "BBBBBBBBBBB", sampleStore) := by
  constructor
  · exact ((removeVideo_spec sampleStore "AAAAAAAAAAA" (by decide)).2 sampleVideo rfl).1
  · exact (removeVideo_spec sampleStore "BBBBBBBBBBB" (by decide)).1 rfl

/-- C9: an explicitly supplied but empty `videoIds` list makes the candidate
set empty — no stored video is searched and the result is the no-matches
report — while only an absent `videoIds` argument falls back to all stored
keys. -/
theorem searchTranscripts_empty_candidate_list (s : Store) (query : String)
    (contextWords : ℕ) (hne : Store.size s ≠ 0) (hq : jsTrim query ≠ "") :
    searchTranscripts s query (some []) contextWords = (.noMatches query [], s) ∧
    searchTranscripts s query none contextWords
      = searchTranscripts s query (some (Store.keys s)) contextWords := by
  refine ⟨?_, rfl⟩
  unfold searchTranscripts
  rw [if_neg hne, if_neg hq]
  rfl

/-- Witness for C9: an explicit empty candidate list over the sample store. -/
theorem searchTranscripts_empty_candidate_list_witness :
    searchTranscripts sampleStore "hello" (some []) 5
      = (.noMatches "hello" [], sampleStore) :=
  (searchTranscripts_empty_candidate_list sampleStore "hello" 5
    (by decide) (by decide)).1

/-- C10: identifiers absent from the store are skipped silently: the scan
collects exactly what it collects over the present identifiers alone, and the
produced match list (when there is one) is unchanged; no error outcome
arises from an absent identifier. -/
theorem searchTranscripts_skips_absent (s : Store) (query : String)
    (contextWords : ℕ) (ids : List String) :
    collectResults s query contextWords ids
      = collectResults s query contextWords (ids.filter (fun id => Store.has s id)) ∧
    responseMatches (searchTranscripts s query (some ids) contextWords).1
      = responseMatches
          (searchTranscripts s query
            (some (ids.filter (fun id => Store.has s id))) contextWords).1 := by
  have hcollect : collectResults s query contextWords ids
      = collectResults s query contextWords (ids.filter (fun id => Store.has s id)) := by
    induction ids with
    | nil => rfl
    | cons id rest ih =>
      cases hhas : Store.has s id with
      | true =>
        rw [List.filter_cons_of_pos hhas]
        show videoBlock s query contextWords id ++ collectResults s query contextWords rest
          = videoBlock s query contextWords id ++ collectResults s query contextWords _
        rw [ih]
      | false =>
        rw [List.filter_cons_of_neg (by rw [hhas]; exact Bool.false_ne_true)]
        show videoBlock s query contextWords id ++ collectResults s query contextWords rest
          = collectResults s query contextWords _
        have hblock : videoBlock s query contextWords id = [] := by
          unfold videoBlock
          rw [store_has_false_iff.mp hhas]
        rw [hblock, List.nil_append, ih]
  refine ⟨hcollect, ?_⟩
  unfold searchTranscripts
  by_cases hsz : Store.size s = 0
  · simp only [if_pos hsz]
  · by_cases hq : jsTrim query = ""
    · simp only [if_neg hsz, if_pos hq]
    · simp only [if_neg hsz, if_neg hq, Option.getD_some, ← hcollect]
      by_cases hempty : (collectResults s query contextWords ids).isEmpty
      · simp only [if_pos hempty]
        rfl
      · simp only [if_neg hempty]

/-! ## Lemmas: the comparator -/

lemma then_eq_lt {o p : Ordering} :
    o.then p = .lt ↔ o = .lt ∨ (o = .eq ∧ p = .lt) := by
  cases o <;> simp [Ordering.then]

lemma then_eq_eq {o p : Ordering} :
    o.then p = .eq ↔ o = .eq ∧ p = .eq := by
  cases o <;> simp [Ordering.then]

lemma then_eq_gt {o p : Ordering} :
    o.then p = .gt ↔ o = .gt ∨ (o = .eq ∧ p = .gt) := by
  cases o <;> simp [Ordering.then]

lemma then_swap {o p : Ordering} : (o.then p).swap = o.swap.then p.swap := by
  cases o <;> cases p <;> rfl

lemma charCmp_lt_iff {a b : Char} : charCmp a b = .lt ↔ a < b := by
  unfold charCmp
  rcases lt_trichotomy a b with h | h | h
  · simp [h]
  · subst h
    simp [lt_irrefl]
  · rw [if_neg (lt_asymm h), if_pos h]
    simp [lt_asymm h]

lemma charCmp_eq_iff {a b : Char} : charCmp a b = .eq ↔ a = b := by
  unfold charCmp
  rcases lt_trichotomy a b with h | h | h
  · simp [h, ne_of_lt h]
  · subst h
    simp [lt_irrefl]
  · rw [if_neg (lt_asymm h), if_pos h]
    simp [Ne.symm (ne_of_lt h)]

lemma charCmp_swap {a b : Char} : (charCmp a b).swap = charCmp b a := by
  unfold charCmp
  rcases lt_trichotomy a b with h | h | h
  · simp [h, lt_asymm h, Ordering.swap]
  · subst h
    simp [lt_irrefl, Ordering.swap]
  · simp [h, lt_asymm h, Ordering.swap]

lemma listCmp_eq_iff : ∀ {x y : List Char}, listCmp x y = .eq ↔ x = y := by
  intro x
  induction x with
  | nil => intro y; cases y <;> simp [listCmp]
  | cons a xs ih =>
    intro y
    cases y with
    | nil => simp [listCmp]
    | cons b ys =>
      show (match charCmp a b with | .eq => listCmp xs ys | o => o) = .eq ↔ _
      cases hc : charCmp a b with
      | eq =>
        have hab : a = b := charCmp_eq_iff.mp hc
        simp [hab, ih]
      | lt =>
        have : a ≠ b := fun h => by rw [charCmp_eq_iff.mpr h] at hc; cases hc
        simp [this]
      | gt =>
        have : a ≠ b := fun h => by rw [charCmp_eq_iff.mpr h] at hc; cases hc
        simp [this]

lemma listCmp_swap : ∀ {x y : List Char}, (listCmp x y).swap = listCmp y x := by
  intro x
  induction x with
  | nil => intro y; cases y <;> rfl
  | cons a xs ih =>
    intro y
    cases y with
    | nil => rfl
    | cons b ys =>
      show (match charCmp a b with | .eq => listCmp xs ys | o => o).swap
        = (match charCmp b a with | .eq => listCmp ys xs | o => o)
      cases hc : charCmp a b with
      | eq =>
        have hba : charCmp b a = .eq := by
          rw [← charCmp_swap, hc]; rfl
        rw [hba]
        exact ih
      | lt =>
        have hba : charCmp b a = .gt := by
          rw [← charCmp_swap, hc]; rfl
        rw [hba]
        rfl
      | gt =>
        have hba : charCmp b a = .lt := by
          rw [← charCmp_swap, hc]; rfl
        rw [hba]
        rfl

lemma listCmp_lt_trans :
    ∀ {x y z : List Char}, listCmp x y = .lt → listCmp y z = .lt → listCmp x z = .lt := by
  intro x
  induction x with
  | nil =>
    intro y z hxy hyz
    cases y with
    | nil => exact hyz
    | cons b ys =>
      cases z with
      | nil => cases hyz
      | cons c zs => rfl
  | cons a xs ih =>
    intro y z hxy hyz
    cases y with
    | nil => cases hxy
    | cons b ys =>
      cases z with
      | nil => cases hyz
      | cons c zs =>
        show (match charCmp a c with | .eq => listCmp xs zs | o => o) = .lt
        have hxy' : (match charCmp a b with | .eq => listCmp xs ys | o => o) = .lt := hxy
        have hyz' : (match charCmp b c with | .eq => listCmp ys zs | o => o) = .lt := hyz
        cases hab : charCmp a b with
        | gt => rw [hab] at hxy'; cases hxy'
        | lt =>
          rw [hab] at hxy'
          cases hbc : charCmp b c with
          | gt => rw [hbc] at hyz'; cases hyz'
          | lt =>
            have hac : charCmp a c = .lt :=
              charCmp_lt_iff.mpr (lt_trans (charCmp_lt_iff.mp hab) (charCmp_lt_iff.mp hbc))
            rw [hac]
          | eq =>
            have hac : charCmp a c = .lt := by
              rw [← charCmp_eq_iff.mp hbc]
              exact hab
            rw [hac]
        | eq =>
          rw [hab] at hxy'
          cases hbc : charCmp b c with
          | gt => rw [hbc] at hyz'; cases hyz'
          | lt =>
            have hac : charCmp a c = .lt := by
              rw [charCmp_eq_iff.mp hab]
              exact hbc
            rw [hac]
          | eq =>
            rw [hbc] at hyz'
            have hac : charCmp a c = .eq := by
              rw [charCmp_eq_iff.mp hab]
              exact hbc
            rw [hac]
            exact ih hxy' hyz'

lemma strCmp_eq_iff {a b : String} : strCmp a b = .eq ↔ a = b := by
  unfold strCmp
  rw [listCmp_eq_iff]
  constructor
  · intro h
    cases a
    cases b
    exact congrArg String.mk h
  · intro h
    rw [h]

lemma strCmp_swap {a b : String} : (strCmp a b).swap = strCmp b a := listCmp_swap

lemma strCmp_lt_trans {a b c : String} :
    strCmp a b = .lt → strCmp b c = .lt → strCmp a c = .lt := listCmp_lt_trans

lemma ratCmp_lt_iff {a b : ℚ} : ratCmp a b = .lt ↔ a < b := by
  unfold ratCmp
  rcases lt_trichotomy a b with h | h | h
  · simp [h]
  · subst h
    simp [lt_irrefl]
  · rw [if_neg (lt_asymm h), if_pos h]
    simp [lt_asymm h]

lemma ratCmp_eq_iff {a b : ℚ} : ratCmp a b = .eq ↔ a = b := by
  unfold ratCmp
  rcases lt_trichotomy a b with h | h | h
  · simp [h, ne_of_lt h]
  · subst h
    simp [lt_irrefl]
  · rw [if_neg (lt_asymm h), if_pos h]
    simp [Ne.symm (ne_of_lt h)]

lemma ratCmp_swap {a b : ℚ} : (ratCmp a b).swap = ratCmp b a := by
  unfold ratCmp
  rcases lt_trichotomy a b with h | h | h
  · simp [h, lt_asymm h, Ordering.swap]
  · subst h
    simp [lt_irrefl, Ordering.swap]
  · simp [h, lt_asymm h, Ordering.swap]

lemma ratCmp_ne_gt_iff {a b : ℚ} : ratCmp a b ≠ .gt ↔ a ≤ b := by
  unfold ratCmp
  rcases lt_trichotomy a b with h | h | h
  · simp [h, le_of_lt h]
  · subst h
    simp [lt_irrefl]
  · rw [if_neg (lt_asymm h), if_pos h]
    simp [not_le_of_lt h]

lemma natCmp_lt_iff {a b : ℕ} : natCmp a b = .lt ↔ a < b := by
  unfold natCmp
  rcases lt_trichotomy a b with h | h | h
  · simp [h]
  · subst h
    simp [lt_irrefl]
  · rw [if_neg (lt_asymm h), if_pos h]
    simp [lt_asymm h]

lemma natCmp_swap {a b : ℕ} : (natCmp a b).swap = natCmp b a := by
  unfold natCmp
  rcases lt_trichotomy a b with h | h | h
  · simp [h, lt_asymm h, Ordering.swap]
  · subst h
    simp [lt_irrefl, Ordering.swap]
  · simp [h, lt_asymm h, Ordering.swap]

lemma ratCmp_lt_trans {a b c : ℚ} :
    ratCmp a b = .lt → ratCmp b c = .lt → ratCmp a c = .lt := by
  intro h1 h2
  exact ratCmp_lt_iff.mpr (lt_trans (ratCmp_lt_iff.mp h1) (ratCmp_lt_iff.mp h2))

lemma natCmp_lt_trans {a b c : ℕ} :
    natCmp a b = .lt → natCmp b c = .lt → natCmp a c = .lt := by
  intro h1 h2
  exact natCmp_lt_iff.mpr (lt_trans (natCmp_lt_iff.mp h1) (natCmp_lt_iff.mp h2))

lemma then_ne_gt {o p : Ordering} :
    o.then p ≠ .gt ↔ o = .lt ∨ (o = .eq ∧ p ≠ .gt) := by
  cases o <;> simp [Ordering.then]

lemma cmpMatch_eq_then (a b : FullResult) :
    cmpMatch a b = (strCmp a.videoId b.videoId).then (ratCmp a.timestamp b.timestamp) := by
  unfold cmpMatch
  by_cases h : a.videoId = b.videoId
  · rw [if_pos h, strCmp_eq_iff.mpr h]
    rfl
  · rw [if_neg h]
    cases hs : strCmp a.videoId b.videoId with
    | eq => exact absurd (strCmp_eq_iff.mp hs) h
    | lt => rfl
    | gt => rfl

lemma cmpMatch_swap {a b : FullResult} : (cmpMatch a b).swap = cmpMatch b a := by
  rw [cmpMatch_eq_then, cmpMatch_eq_then, then_swap, strCmp_swap, ratCmp_swap]

lemma cmpFull_swap {a b : FullResult} : (cmpFull a b).swap = cmpFull b a := by
  unfold cmpFull
  rw [then_swap, then_swap, strCmp_swap, ratCmp_swap, natCmp_swap]

lemma cmpFull_asymm {a b : FullResult} (h : cmpFull a b = .lt) : ¬cmpFull b a = .lt := by
  intro h'
  rw [← cmpFull_swap, h] at h'
  cases h'

/-- The inner (timestamp, matchIndex) lexicographic key is transitive. -/
lemma ratNatThen_lt_trans {t1 t2 t3 : ℚ} {i1 i2 i3 : ℕ} :
    (ratCmp t1 t2).then (natCmp i1 i2) = .lt →
    (ratCmp t2 t3).then (natCmp i2 i3) = .lt →
    (ratCmp t1 t3).then (natCmp i1 i3) = .lt := by
  intro h1 h2
  rcases then_eq_lt.mp h1 with hr1 | ⟨hr1, hn1⟩ <;>
    rcases then_eq_lt.mp h2 with hr2 | ⟨hr2, hn2⟩
  · exact then_eq_lt.mpr (Or.inl (ratCmp_lt_trans hr1 hr2))
  · rw [← ratCmp_eq_iff.mp hr2] at *
    exact then_eq_lt.mpr (Or.inl hr1)
  · rw [ratCmp_eq_iff.mp hr1] at *
    exact then_eq_lt.mpr (Or.inl hr2)
  · rw [ratCmp_eq_iff.mp hr1] at *
    exact then_eq_lt.mpr (Or.inr ⟨hr2, natCmp_lt_trans hn1 hn2⟩)

lemma cmpFull_lt_trans {a b c : FullResult} :
    cmpFull a b = .lt → cmpFull b c = .lt → cmpFull a c = .lt := by
  intro h1 h2
  unfold cmpFull at h1 h2 ⊢
  rcases then_eq_lt.mp h1 with hs1 | ⟨hs1, hin1⟩ <;>
    rcases then_eq_lt.mp h2 with hs2 | ⟨hs2, hin2⟩
  · exact then_eq_lt.mpr (Or.inl (strCmp_lt_trans hs1 hs2))
  · rw [← strCmp_eq_iff.mp hs2]
    exact then_eq_lt.mpr (Or.inl hs1)
  · rw [strCmp_eq_iff.mp hs1]
    exact then_eq_lt.mpr (Or.inl hs2)
  · rw [strCmp_eq_iff.mp hs1]
    exact then_eq_lt.mpr (Or.inr ⟨hs2, ratNatThen_lt_trans hin1 hin2⟩)

lemma cmpMatch_lt_imp_cmpFull {a b : FullResult} (h : cmpMatch a b = .lt) :
    cmpFull a b = .lt := by
  rw [cmpMatch_eq_then] at h
  unfold cmpFull
  rcases then_eq_lt.mp h with hs | ⟨hs, hr⟩
  · exact then_eq_lt.mpr (Or.inl hs)
  · exact then_eq_lt.mpr (Or.inr ⟨hs, then_eq_lt.mpr (Or.inl hr)⟩)

lemma cmpMatch_eq_parts {a b : FullResult} (h : cmpMatch a b = .eq) :
    a.videoId = b.videoId ∧ a.timestamp = b.timestamp := by
  rw [cmpMatch_eq_then] at h
  obtain ⟨hs, hr⟩ := then_eq_eq.mp h
  exact ⟨strCmp_eq_iff.mp hs, ratCmp_eq_iff.mp hr⟩

lemma cmpMatch_le_trans {a b c : FullResult} :
    cmpMatch a b ≠ .gt → cmpMatch b c ≠ .gt → cmpMatch a c ≠ .gt := by
  intro h1 h2
  rw [cmpMatch_eq_then] at h1 h2 ⊢
  rcases then_ne_gt.mp h1 with hs1 | ⟨hs1, hr1⟩ <;>
    rcases then_ne_gt.mp h2 with hs2 | ⟨hs2, hr2⟩
  · exact then_ne_gt.mpr (Or.inl (strCmp_lt_trans hs1 hs2))
  · rw [← strCmp_eq_iff.mp hs2]
    exact then_ne_gt.mpr (Or.inl hs1)
  · rw [strCmp_eq_iff.mp hs1]
    exact then_ne_gt.mpr (Or.inl hs2)
  · rw [strCmp_eq_iff.mp hs1]
    refine then_ne_gt.mpr (Or.inr ⟨hs2, ?_⟩)
    exact ratCmp_ne_gt_iff.mpr
      (le_trans (ratCmp_ne_gt_iff.mp hr1) (ratCmp_ne_gt_iff.mp hr2))

/-- `listCmp` agrees with Mathlib's lexicographic order on character lists. -/
lemma listCmp_lt_iff_lex : ∀ {x y : List Char},
    listCmp x y = .lt ↔ List.Lex (· < ·) x y := by
  intro x
  induction x with
  | nil =>
    intro y
    cases y with
    | nil => simp [listCmp]
    | cons b ys => simp [listCmp, List.Lex.nil]
  | cons a xs ih =>
    intro y
    cases y with
    | nil => simp [listCmp]
    | cons b ys =>
      show (match charCmp a b with | .eq => listCmp xs ys | o => o) = .lt ↔ _
      cases hc : charCmp a b with
      | lt =>
        exact iff_of_true rfl (List.Lex.rel (charCmp_lt_iff.mp hc))
      | eq =>
        have hab : a = b := charCmp_eq_iff.mp hc
        subst hab
        rw [ih, List.Lex.cons_iff]
      | gt =>
        refine iff_of_false (by simp) ?_
        intro hlex
        cases hlex with
        | rel h =>
          rw [charCmp_lt_iff.mpr h] at hc
          cases hc
        | cons h =>
          rw [charCmp_eq_iff.mpr rfl] at hc
          cases hc

/-! ## Lemmas: the stable sort -/

lemma insertCmp_perm (cmp : α → α → Ordering) (x : α) :
    ∀ l : List α, (insertCmp cmp x l).Perm (x :: l) := by
  intro l
  induction l with
  | nil => exact List.Perm.refl _
  | cons y ys ih =>
    unfold insertCmp
    by_cases h : cmp y x = .lt
    · rw [if_pos h]
      exact (ih.cons y).trans (List.Perm.swap x y ys)
    · rw [if_neg h]

lemma jsSort_perm (cmp : α → α → Ordering) : ∀ l : List α, (jsSort cmp l).Perm l := by
  intro l
  induction l with
  | nil => exact List.Perm.refl _
  | cons x xs ih =>
    unfold jsSort
    exact (insertCmp_perm cmp x (jsSort cmp xs)).trans (ih.cons x)

lemma insertCmp_pairwise_le {cmp : α → α → Ordering}
    (hswap : ∀ a b, (cmp a b).swap = cmp b a)
    (htrans : ∀ a b c, cmp a b ≠ .gt → cmp b c ≠ .gt → cmp a c ≠ .gt)
    {x : α} {l : List α} (hl : l.Pairwise (fun a b => cmp a b ≠ .gt)) :
    (insertCmp cmp x l).Pairwise (fun a b => cmp a b ≠ .gt) := by
  induction l with
  | nil => exact List.pairwise_singleton _ _
  | cons y ys ih =>
    rw [List.pairwise_cons] at hl
    obtain ⟨hy, hys⟩ := hl
    have hxy : cmp y x ≠ .lt → cmp x y ≠ .gt := by
      intro h
      cases hc : cmp y x with
      | lt => exact absurd hc h
      | eq =>
        have : cmp x y = .eq := by rw [← hswap y x, hc]; rfl
        rw [this]
        exact fun hh => by cases hh
      | gt =>
        have : cmp x y = .lt := by rw [← hswap y x, hc]; rfl
        rw [this]
        exact fun hh => by cases hh
    unfold insertCmp
    by_cases h : cmp y x = .lt
    · rw [if_pos h]
      rw [List.pairwise_cons]
      refine ⟨?_, ih hys⟩
      intro z hz
      rcases List.mem_cons.mp ((insertCmp_perm cmp x ys).mem_iff.mp hz) with rfl | hzys
      · rw [h]
        exact fun hh => by cases hh
      · exact hy z hzys
    · rw [if_neg h]
      rw [List.pairwise_cons]
      refine ⟨?_, List.pairwise_cons.mpr ⟨hy, hys⟩⟩
      intro z hz
      rcases List.mem_cons.mp hz with rfl | hzys
      · exact hxy h
      · exact htrans x y z (hxy h) (hy z hzys)

lemma jsSort_pairwise_le {cmp : α → α → Ordering}
    (hswap : ∀ a b, (cmp a b).swap = cmp b a)
    (htrans : ∀ a b c, cmp a b ≠ .gt → cmp b c ≠ .gt → cmp a c ≠ .gt) :
    ∀ l : List α, (jsSort cmp l).Pairwise (fun a b => cmp a b ≠ .gt) := by
  intro l
  induction l with
  | nil => exact List.Pairwise.nil
  | cons x xs ih =>
    unfold jsSort
    exact insertCmp_pairwise_le hswap htrans ih

lemma insertCmp_pairwiseR {cmp : α → α → Ordering} {R : α → α → Prop}
    (hRtrans : ∀ a b c, R a b → R b c → R a c) :
    ∀ {l : List α} {x : α}, l.Pairwise R →
    (∀ y ∈ l, (cmp y x = .lt → R y x) ∧ (cmp y x ≠ .lt → R x y)) →
    (insertCmp cmp x l).Pairwise R := by
  intro l
  induction l with
  | nil => intro x _ _; exact List.pairwise_singleton _ _
  | cons y ys ih =>
    intro x hl hx
    rw [List.pairwise_cons] at hl
    obtain ⟨hy, hys⟩ := hl
    have hxy := hx y (List.mem_cons_self y ys)
    unfold insertCmp
    by_cases h : cmp y x = .lt
    · rw [if_pos h]
      rw [List.pairwise_cons]
      refine ⟨?_, ih hys (fun z hz => hx z (List.mem_cons_of_mem y hz))⟩
      intro z hz
      rcases List.mem_cons.mp ((insertCmp_perm cmp x ys).mem_iff.mp hz) with rfl | hzys
      · exact hxy.1 h
      · exact hy z hzys
    · rw [if_neg h]
      rw [List.pairwise_cons]
      refine ⟨?_, List.pairwise_cons.mpr ⟨hy, hys⟩⟩
      intro z hz
      rcases List.mem_cons.mp hz with rfl | hzys
      · exact hxy.2 h
      · exact hRtrans x y z (hxy.2 h) (hy z hzys)

/-- Stability: on an input whose comparator ties are already `R`-ordered, the
stable sort produces an `R`-pairwise (strictly ordered) list. -/
lemma jsSort_pairwiseR {cmp : α → α → Ordering} {R : α → α → Prop}
    (hRtrans : ∀ a b c, R a b → R b c → R a c)
    (himp : ∀ a b, cmp a b = .lt → R a b)
    (hswap : ∀ a b, (cmp a b).swap = cmp b a) :
    ∀ {l : List α}, l.Pairwise (fun a b => cmp a b = .eq → R a b) →
    (jsSort cmp l).Pairwise R := by
  intro l
  induction l with
  | nil => intro _; exact List.Pairwise.nil
  | cons x xs ih =>
    intro hl
    rw [List.pairwise_cons] at hl
    obtain ⟨hx, hxs⟩ := hl
    unfold jsSort
    apply insertCmp_pairwiseR hRtrans (ih hxs)
    intro y hy
    have hymem : y ∈ xs := (jsSort_perm cmp xs).mem_iff.mp hy
    constructor
    · intro hlt
      exact himp y x hlt
    · intro hnlt
      cases hc : cmp y x with
      | lt => exact absurd hc hnlt
      | eq =>
        have heq : cmp x y = .eq := by rw [← hswap y x, hc]; rfl
        exact hx y hymem heq
      | gt =>
        have hlt : cmp x y = .lt := by rw [← hswap y x, hc]; rfl
        exact himp x y hlt

/-- Two permutations of the same elements that are both pairwise ordered by
an asymmetric relation are equal. -/
lemma pairwiseR_perm_eq {R : α → α → Prop} (hasymm : ∀ a b, R a b → ¬R b a) :
    ∀ {l1 l2 : List α}, l1.Perm l2 → l1.Pairwise R → l2.Pairwise R → l1 = l2 := by
  intro l1
  induction l1 with
  | nil =>
    intro l2 hp _ _
    exact (hp.symm.eq_nil).symm
  | cons a t1 ih =>
    intro l2 hp h1 h2
    have ha2 : a ∈ l2 := hp.mem_iff.mp (List.mem_cons_self a t1)
    cases l2 with
    | nil => exact absurd ha2 (List.not_mem_nil a)
    | cons b t2 =>
      by_cases hab : a = b
      · subst hab
        rw [ih hp.cons_inv (List.pairwise_cons.mp h1).2 (List.pairwise_cons.mp h2).2]
      · have ha : a ∈ t2 := by
          rcases List.mem_cons.mp ha2 with h | h
          · exact absurd h hab
          · exact h
        have hb : b ∈ t1 := by
          have hmem := hp.symm.mem_iff.mp (List.mem_cons_self b t2)
          rcases List.mem_cons.mp hmem with h | h
          · exact absurd h.symm hab
          · exact h
        have hRab : R a b := (List.pairwise_cons.mp h1).1 b hb
        have hRba : R b a := (List.pairwise_cons.mp h2).1 a ha
        exact absurd hRba (hasymm a b hRab)

/-! ## Lemmas: the cross-video scan -/

lemma specMatchAt_matchIndex {t : List TranscriptEntry} {q : String} {cw i : ℕ}
    {r : SearchResult} (h : specMatchAt t q cw i = some r) : r.matchIndex = i := by
  unfold specMatchAt at h
  replace h : (if containsSub (jsToLower (t.getD i default).text).data (jsToLower q).data then
      some ({ timestamp := (t.getD i default).start, duration := (t.getD i default).duration,
              text := (t.getD i default).text,
              context := String.intercalate " " ((specContextWindow t cw i).map (·.text)),
              matchIndex := i } : SearchResult) else none) = some r := h
  split at h
  · cases h
    rfl
  · cases h

lemma searchInTranscript_matchIndex_pairwise (t : List TranscriptEntry) (q : String)
    (cw : ℕ) : (searchInTranscript t q cw).Pairwise
      (fun r1 r2 => r1.matchIndex < r2.matchIndex) := by
  rw [searchInTranscript_eq_searchSpec, searchSpec_eq_filterMap,
    List.pairwise_filterMap]
  refine (List.pairwise_lt_range t.length).imp_of_mem ?_
  intro i j _ _ hij r1 h1 r2 h2
  rw [specMatchAt_matchIndex (Option.mem_def.mp h1),
    specMatchAt_matchIndex (Option.mem_def.mp h2)]
  exact hij

lemma videoBlock_videoId {s : Store} {q : String} {cw : ℕ} {id : String}
    {r : FullResult} (h : r ∈ videoBlock s q cw id) : r.videoId = id := by
  unfold videoBlock at h
  cases hget : Store.get s id with
  | none =>
    rw [hget] at h
    cases h
  | some vd =>
    rw [hget] at h
    obtain ⟨a, _, rfl⟩ := List.mem_map.mp h
    rfl

lemma videoBlock_matchIndex_pairwise (s : Store) (q : String) (cw : ℕ) (id : String) :
    (videoBlock s q cw id).Pairwise (fun r1 r2 => r1.matchIndex < r2.matchIndex) := by
  unfold videoBlock
  cases hget : Store.get s id with
  | none => exact List.Pairwise.nil
  | some vd =>
    rw [List.pairwise_map]
    exact searchInTranscript_matchIndex_pairwise vd.transcript q cw

lemma collectResults_videoId {s : Store} {q : String} {cw : ℕ} :
    ∀ {ids : List String} {r : FullResult},
    r ∈ collectResults s q cw ids → r.videoId ∈ ids := by
  intro ids
  induction ids with
  | nil => intro r h; cases h
  | cons id rest ih =>
    intro r h
    have h' : r ∈ videoBlock s q cw id ++ collectResults s q cw rest := h
    rcases List.mem_append.mp h' with hb | hc
    · rw [videoBlock_videoId hb]
      exact List.mem_cons_self id rest
    · exact List.mem_cons_of_mem id (ih hc)

/-- On a duplicate-free candidate list, any two scan results that the
comparator considers tied (same video, same timestamp) appear in strictly
increasing match-index order: ties come from one video's single block, whose
match indices ascend. -/
lemma collectResults_stab {s : Store} {q : String} {cw : ℕ} :
    ∀ {ids : List String}, ids.Nodup →
    (collectResults s q cw ids).Pairwise
      (fun a b => cmpMatch a b = .eq → cmpFull a b = .lt) := by
  intro ids
  induction ids with
  | nil => intro _; exact List.Pairwise.nil
  | cons id rest ih =>
    intro hnd
    obtain ⟨hnotin, hndrest⟩ := List.nodup_cons.mp hnd
    show (videoBlock s q cw id ++ collectResults s q cw rest).Pairwise _
    rw [List.pairwise_append]
    refine ⟨?_, ih hndrest, ?_⟩
    · refine (videoBlock_matchIndex_pairwise s q cw id).imp_of_mem ?_
      intro a b ha hb hab heq
      have hva : a.videoId = b.videoId := (videoBlock_videoId ha).trans (videoBlock_videoId hb).symm
      have hts : a.timestamp = b.timestamp := (cmpMatch_eq_parts heq).2
      unfold cmpFull
      refine then_eq_lt.mpr (Or.inr ⟨strCmp_eq_iff.mpr hva, ?_⟩)
      exact then_eq_lt.mpr (Or.inr ⟨ratCmp_eq_iff.mpr hts, natCmp_lt_iff.mpr hab⟩)
    · intro a ha b hb heq
      exfalso
      have hva : a.videoId = id := videoBlock_videoId ha
      have hvb : b.videoId ∈ rest := collectResults_videoId hb
      have hvv : a.videoId = b.videoId := (cmpMatch_eq_parts heq).1
      exact hnotin ((hva ▸ hvv) ▸ hvb)

lemma collectResults_perm {s : Store} {q : String} {cw : ℕ}
    {ids1 ids2 : List String} (h : ids1.Perm ids2) :
    (collectResults s q cw ids1).Perm (collectResults s q cw ids2) := by
  induction h with
  | nil => exact List.Perm.refl _
  | cons x _ ih =>
    show (videoBlock s q cw x ++ _).Perm (videoBlock s q cw x ++ _)
    exact ih.append_left _
  | swap x y t =>
    show (videoBlock s q cw y ++ (videoBlock s q cw x ++ collectResults s q cw t)).Perm
      (videoBlock s q cw x ++ (videoBlock s q cw y ++ collectResults s q cw t))
    rw [← List.append_assoc, ← List.append_assoc]
    exact List.perm_append_comm.append_right _
  | trans _ _ ih1 ih2 => exact ih1.trans ih2

lemma collectResults_ne_nil {s : Store} {q : String} {cw : ℕ} {id : String}
    {ids : List String} (hmem : id ∈ ids) (hne : videoBlock s q cw id ≠ []) :
    collectResults s q cw ids ≠ [] := by
  induction ids with
  | nil => cases hmem
  | cons x rest ih =>
    intro hnil
    have hnil' : videoBlock s q cw x ++ collectResults s q cw rest = [] := hnil
    rcases List.mem_cons.mp hmem with rfl | hmem'
    · exact hne (List.append_eq_nil.mp hnil').1
    · exact ih hmem' (List.append_eq_nil.mp hnil').2

/-- Specialization of the stability lemma to the search comparator. -/
lemma jsSort_cmpMatch_pairwiseFull {l : List FullResult}
    (hl : l.Pairwise (fun a b => cmpMatch a b = .eq → cmpFull a b = .lt)) :
    (jsSort cmpMatch l).Pairwise (fun a b => cmpFull a b = .lt) :=
  @jsSort_pairwiseR FullResult cmpMatch (fun a b => cmpFull a b = .lt)
    (fun a b c hab hbc => cmpFull_lt_trans hab hbc)
    (fun a b hab => cmpMatch_lt_imp_cmpFull hab)
    (fun a b => @cmpMatch_swap a b) l hl

lemma cmpMatch_ne_gt_le2 {a b : FullResult} (h : cmpMatch a b ≠ .gt) :
    List.Lex (· < ·) a.videoId.data b.videoId.data ∨
    (a.videoId = b.videoId ∧ a.timestamp ≤ b.timestamp) := by
  rw [cmpMatch_eq_then] at h
  rcases then_ne_gt.mp h with hs | ⟨hs, hr⟩
  · exact Or.inl (listCmp_lt_iff_lex.mp hs)
  · exact Or.inr ⟨strCmp_eq_iff.mp hs, ratCmp_ne_gt_iff.mp hr⟩

/-- C1: whenever a search over a duplicate-free candidate list returns a
match list, that list is ordered with primary key the video identifier in
lexicographic (code-point) order and secondary key the timestamp ascending;
and when the candidate set contains at least two distinct stored videos with
matches, the entire response is unchanged under any permutation of the scan
order.  (`localeCompare` is modelled as lexicographic code-point
comparison.) -/
theorem searchTranscripts_ordering (s : Store) (query : String) (contextWords : ℕ)
    (ids1 ids2 : List String) (id1 id2 : String) (v1 v2 : VideoData)
    (hnd : ids1.Nodup) (hperm : ids1.Perm ids2)
    (hmem1 : id1 ∈ ids1) (hmem2 : id2 ∈ ids1) (hne12 : id1 ≠ id2)
    (hget1 : Store.get s id1 = some v1) (hget2 : Store.get s id2 = some v2)
    (hres1 : searchInTranscript v1.transcript query contextWords ≠ [])
    (hres2 : searchInTranscript v2.transcript query contextWords ≠ []) :
    (∀ q rs, (searchTranscripts s query (some ids1) contextWords).1 = .matches q rs →
      rs.Pairwise (fun a b =>
        List.Lex (· < ·) a.videoId.data b.videoId.data ∨
        (a.videoId = b.videoId ∧ a.timestamp ≤ b.timestamp))) ∧
    searchTranscripts s query (some ids1) contextWords
      = searchTranscripts s query (some ids2) contextWords := by
  have hsz : Store.size s ≠ 0 := by
    have := store_get_some_ne_nil hget1
    omega
  constructor
  · intro q rs h
    unfold searchTranscripts at h
    rw [if_neg hsz] at h
    by_cases hq : jsTrim query = ""
    · rw [if_pos hq] at h
      exact absurd h (by simp)
    · rw [if_neg hq] at h
      simp only [Option.getD_some] at h
      by_cases hempty : (collectResults s query contextWords ids1).isEmpty
      · rw [if_pos hempty] at h
        exact absurd h (by simp)
      · rw [if_neg hempty] at h
        have hrs : rs = jsSort cmpMatch (collectResults s query contextWords ids1) := by
          have h' : SearchResponse.matches query
              (jsSort cmpMatch (collectResults s query contextWords ids1))
              = SearchResponse.matches q rs := h
          exact (SearchResponse.matches.injEq _ _ _ _ ▸ h').2.symm
        subst hrs
        refine List.Pairwise.imp ?_
          (jsSort_pairwise_le (fun a b => @cmpMatch_swap a b)
            (fun a b c hab hbc => cmpMatch_le_trans hab hbc) _)
        intro a b hab
        exact cmpMatch_ne_gt_le2 hab
  · unfold searchTranscripts
    by_cases hq : jsTrim query = ""
    · simp only [if_neg hsz, if_pos hq]
    · simp only [if_neg hsz, if_neg hq, Option.getD_some]
      have hbne1 : videoBlock s query contextWords id1 ≠ [] := by
        unfold videoBlock
        rw [hget1]
        exact fun hh => hres1 (List.map_eq_nil_iff.mp hh)
      have hne1 : collectResults s query contextWords ids1 ≠ [] :=
        collectResults_ne_nil hmem1 hbne1
      have hne2 : collectResults s query contextWords ids2 ≠ [] := by
        intro hh
        exact hne1 (List.Perm.eq_nil (hh ▸ collectResults_perm hperm))
      have hie1 : (collectResults s query contextWords ids1).isEmpty = false := by
        cases hl : collectResults s query contextWords ids1 with
        | nil => exact absurd hl hne1
        | cons a t => rfl
      have hie2 : (collectResults s query contextWords ids2).isEmpty = false := by
        cases hl : collectResults s query contextWords ids2 with
        | nil => exact absurd hl hne2
        | cons a t => rfl
      simp only [hie1, hie2, Bool.false_eq_true, if_false]
      have hsorteq : jsSort cmpMatch (collectResults s query contextWords ids1)
          = jsSort cmpMatch (collectResults s query contextWords ids2) := by
        apply pairwiseR_perm_eq (fun a b hab => cmpFull_asymm hab)
        · exact (jsSort_perm _ _).trans
            ((collectResults_perm hperm).trans (jsSort_perm _ _).symm)
        · exact jsSort_cmpMatch_pairwiseFull (collectResults_stab hnd)
        · exact jsSort_cmpMatch_pairwiseFull (collectResults_stab (hperm.nodup hnd))
      rw [hsorteq]

/-- Witness for C1: the same search over the two-video store with the two
possible scan orders returns identical responses. -/
theorem searchTranscripts_ordering_witness :
    searchTranscripts sampleStore2 "a" (some ["BBBBBBBBBBB", "AAAAAAAAAAA"]) 1
      = searchTranscripts sampleStore2 "a" (some ["AAAAAAAAAAA", "BBBBBBBBBBB"]) 1 :=
  (searchTranscripts_ordering sampleStore2 "a" 1
    ["BBBBBBBBBBB", "AAAAAAAAAAA"] ["AAAAAAAAAAA", "BBBBBBBBBBB"]
    "BBBBBBBBBBB" "AAAAAAAAAAA" sampleVideoB sampleVideoA
    (by decide) (by decide) (by decide) (by decide) (by decide)
    rfl rfl (by decide) (by decide)).2

end YT
